import Mathlib

/-!
Surfstore: metadata store, block store, consistent hash ring and client sync.

A shallow embedding of `pkg/surfstore` and the properties checked against it.

Conventions of the embedding
* A Go `map[string]V` is an association list `GoMap V` with at most one entry
  per key; `GoMap.get?` is the lookup `m[k]` with its `ok` flag and
  `GoMap.set` is the assignment `m[k] = v`.  A `range` loop over a map visits
  the entries in the order of the list, so a statement made for every list is
  a statement for every iteration order.
* A Go `[]string` is a `List String` (a nil slice and an empty slice are both
  `[]`), a `[]byte` is a `List UInt8`.
* An `int32` is an `Int`; arithmetic on it goes through `wrapInt32`.
* SHA-256 followed by hex encoding is a parameter of the development
  (`Hash` on address strings, `GetBlockHashString` on byte slices).
* A pointer `*FileMetaData` stored in a map is the value it points to: the
  pointers held by the local index, the remote index and the stores are all
  distinct allocations.
-/

namespace Surfstore

/-! ## Go maps -/

/-- A Go map with string keys, as an association list. -/
abbrev GoMap (V : Type) := List (String × V)

namespace GoMap

/-- The lookup `v, ok := m[k]`. -/
def get? {V : Type} : GoMap V → String → Option V
  | [], _ => none
  | (k', v) :: t, k => if k' = k then some v else get? t k

/-- The assignment `m[k] = v`. -/
def set {V : Type} : GoMap V → String → V → GoMap V
  | [], k, v => [(k, v)]
  | (k', v') :: t, k, v => if k' = k then (k, v) :: t else (k', v') :: set t k v

/-- The removal `delete(m, k)`. -/
def erase {V : Type} : GoMap V → String → GoMap V
  | [], _ => []
  | (k', v') :: t, k => if k' = k then t else (k', v') :: erase t k

/-- The keys of the map, in iteration order. -/
def keys {V : Type} (m : GoMap V) : List String := m.map Prod.fst

end GoMap

/-! ## Machine integers -/

/-- Two's complement wrap-around of an integer into the `int32` range. -/
def wrapInt32 (x : Int) : Int := (x + 2 ^ 31) % 2 ^ 32 - 2 ^ 31

/-- Go's `a + b` on `int32` operands. -/
def addInt32 (a b : Int) : Int := wrapInt32 (a + b)

/-- The value is representable as an `int32`. -/
def isInt32 (x : Int) : Prop := -(2 : Int) ^ 31 ≤ x ∧ x < 2 ^ 31

instance (x : Int) : Decidable (isInt32 x) := by
  unfold isInt32; infer_instance

/-! ## Wire messages -/

/-- The message `FileMetaData{Filename, Version, BlockHashList}`. -/
structure FileMetaData where
  Filename : String
  Version : Int
  BlockHashList : List String
  deriving DecidableEq, Repr

/-- The message `Block{BlockData, BlockSize}`. -/
structure Block where
  BlockData : List UInt8
  BlockSize : Int
  deriving DecidableEq, Repr

/-! ## MetaStore.go -/

/-- The metadata server: its file map and the configured block servers. -/
structure MetaStore where
  FileMetaMap : GoMap FileMetaData
  BlockStoreAddrs : List String
  deriving DecidableEq, Repr

/-- `MetaStore.GetFileInfoMap`: the current file map. -/
def MetaStore.GetFileInfoMap (m : MetaStore) : GoMap FileMetaData := m.FileMetaMap

/-- `MetaStore.UpdateFile`: the new store and the `Version` that is returned
(the error result is always nil). -/
def MetaStore.UpdateFile (m : MetaStore) (fileMetaData : FileMetaData) : MetaStore × Int :=
  let filename := fileMetaData.Filename
  let version := fileMetaData.Version
  match m.FileMetaMap.get? filename with
  | some cur =>
    let currentVersion := cur.Version
    if version = addInt32 currentVersion 1 then
      ({ m with FileMetaMap := m.FileMetaMap.set filename fileMetaData }, version)
    else
      (m, -1)
  | none =>
    ({ m with FileMetaMap := m.FileMetaMap.set fileMetaData.Filename fileMetaData }, version)

/-! ## ConsistentHashRing.go -/

/-- Go's `sort.Strings`: the list put in ascending order.  Strings that
compare equal are the same string, so the result does not depend on the
sorting algorithm. -/
def sortStrings (l : List String) : List String := l.insertionSort (· ≤ ·)

/-- The ring: token to address, and the sorted tokens. -/
structure ConsistentHashRing where
  ServerMap : GoMap String
  HashList : List String
  deriving DecidableEq, Repr

/-- One iteration of the loop of `NewConsistentHashRing`. -/
def ConsistentHashRing.addServer (Hash : String → String) (c : ConsistentHashRing)
    (addr : String) : ConsistentHashRing :=
  let hashedAddr := Hash addr
  { ServerMap := c.ServerMap.set hashedAddr addr, HashList := c.HashList ++ [hashedAddr] }

/-- `NewConsistentHashRing`; `Hash` is the method `ConsistentHashRing.Hash`
(hex of the SHA-256 of the address). -/
def NewConsistentHashRing (Hash : String → String) (serverAddrs : List String) :
    ConsistentHashRing :=
  let c := serverAddrs.foldl (ConsistentHashRing.addServer Hash) { ServerMap := [], HashList := [] }
  { c with HashList := sortStrings c.HashList }

/-- The `for` loop of `Search`: the first entry that `target` is not greater than. -/
def ConsistentHashRing.searchLoop (target : String) : List String → Option String
  | [] => none
  | addr :: rest => if target > addr then searchLoop target rest else some addr

/-- `ConsistentHashRing.Search`; `none` is the index-out-of-range panic of
`c.HashList[0]` on an empty ring. -/
def ConsistentHashRing.Search (c : ConsistentHashRing) (target : String) : Option String :=
  match ConsistentHashRing.searchLoop target c.HashList with
  | some addr => some addr
  | none => c.HashList.head?

/-- `ConsistentHashRing.GetResponsibleServer`; a token missing from
`ServerMap` would give the zero value `""`. -/
def ConsistentHashRing.GetResponsibleServer (c : ConsistentHashRing) (blockId : String) :
    Option String :=
  match c.Search blockId with
  | some HashedServer => some ((c.ServerMap.get? HashedServer).getD "")
  | none => none

/-! ## BlockStore.go -/

/-- The block server: its map from hash to block. -/
structure BlockStore where
  BlockMap : GoMap Block
  deriving DecidableEq, Repr

/-- `BlockStore.GetBlock`: the block, or the error `block not found`. -/
def BlockStore.GetBlock (bs : BlockStore) (blockHash : String) : Except String Block :=
  match bs.BlockMap.get? blockHash with
  | none => .error ("block not found: " ++ blockHash)
  | some block => .ok block

/-- `BlockStore.PutBlock`: the new store and the returned `Success.Flag`, or
an error; `GetBlockHashString` is hex of the SHA-256 of the payload. -/
def BlockStore.PutBlock (GetBlockHashString : List UInt8 → String) (bs : BlockStore)
    (block : Block) : BlockStore × Except String Bool :=
  let hash := GetBlockHashString block.BlockData
  ({ BlockMap := bs.BlockMap.set hash block }, .ok true)

/-- `BlockStore.HasBlocks`: the loop appends every input hash that is a key of the map. -/
def BlockStore.HasBlocks (bs : BlockStore) (blockHashesIn : List String) : List String :=
  blockHashesIn.foldl
    (fun hashes hash => if (bs.BlockMap.get? hash).isSome then hashes ++ [hash] else hashes) []

/-- `BlockStore.GetBlockHashes`: the keys of the map. -/
def BlockStore.GetBlockHashes (bs : BlockStore) : List String := bs.BlockMap.keys

/-! ## The client's environment -/

/-- Modelled from the spec: the constant `DEFAULT_META_FILENAME`, declared
outside the files at hand; the spec fixes the name of the index file as
`index.db`. -/
def DEFAULT_META_FILENAME : String := "index.db"

/-- The struct `RPCClient`.  `BlockSize` is a Go `int`; the client is only
run with a positive one. -/
structure RPCClient where
  MetaStoreAddr : String
  BaseDir : String
  BlockSize : Nat
  deriving DecidableEq, Repr

/-- What the client sees of the disk: the regular files by path with their
bytes, and the paths at which `os.Create` fails. -/
structure FileSys where
  files : GoMap (List UInt8)
  denied : List String
  deriving DecidableEq, Repr

/-- The part of `fs.FileInfo` that the client reads. -/
structure FileInfo where
  Name : String
  Size : Nat
  deriving DecidableEq, Repr

/-- The servers as the client reaches them through gRPC: a state `σ` and one
handler per remote call, each answering with a reply or with an error (of the
transport or of the server). -/
structure RPCServer (σ : Type) where
  UpdateFile : σ → FileMetaData → σ × Except String Int
  PutBlock : σ → String → Block → σ × Except String Bool
  GetBlock : σ → String → String → σ × Except String Block

/-- A metadata server and block servers by address, run in one process. -/
structure Cluster where
  metaStore : MetaStore
  blockStores : GoMap BlockStore
  deriving DecidableEq, Repr

/-- The handlers of `MetaStore.go` and `BlockStore.go` behind a transport
that fails only for an address at which no block server listens. -/
def Cluster.server (GetBlockHashString : List UInt8 → String) : RPCServer Cluster where
  UpdateFile c fileMetaData :=
    let r := c.metaStore.UpdateFile fileMetaData
    ({ c with metaStore := r.1 }, .ok r.2)
  PutBlock c blockStoreAddr block :=
    match c.blockStores.get? blockStoreAddr with
    | none => (c, .error "connection refused")
    | some bs =>
      let r := bs.PutBlock GetBlockHashString block
      ({ c with blockStores := c.blockStores.set blockStoreAddr r.1 }, r.2)
  GetBlock c blockStoreAddr blockHash :=
    match c.blockStores.get? blockStoreAddr with
    | none => (c, .error "connection refused")
    | some bs => (c, bs.GetBlock blockHash)

/-! ## SurfstoreRPCClient.go -/

/-- `RPCClient.PutBlock`: the server state, the returned error and the value left in `*succ`
(initially `succ`). -/
def RPCClient.PutBlock {σ : Type} (srv : RPCServer σ) (s : σ) (block : Block)
    (blockStoreAddr : String) (succ : Bool) : σ × Option String × Bool :=
  match srv.PutBlock s blockStoreAddr block with
  | (s', .error err) => (s', some err, succ)
  | (s', .ok flag) => if !flag then (s', none, succ) else (s', none, flag)

/-- `RPCClient.GetBlock`: the server state, the returned error and the value
left in `*block` (initially `block`). -/
def RPCClient.GetBlock {σ : Type} (srv : RPCServer σ) (s : σ) (blockHash : String)
    (blockStoreAddr : String) (block : Block) : σ × Option String × Block :=
  match srv.GetBlock s blockStoreAddr blockHash with
  | (s', .error err) => (s', some err, block)
  | (s', .ok b) => (s', none, { BlockData := b.BlockData, BlockSize := b.BlockSize })

/-- `RPCClient.UpdateFile`: the server state, the returned error and the
value left in `*latestVersion` (initially `latestVersion`). -/
def RPCClient.UpdateFile {σ : Type} (srv : RPCServer σ) (s : σ) (fileMetaData : FileMetaData)
    (latestVersion : Int) : σ × Option String × Int :=
  match srv.UpdateFile s fileMetaData with
  | (s', .error err) => (s', some err, latestVersion)
  | (s', .ok v) => (s', none, v)

/-! ## SurfstoreUtils.go -/

/-- The expression `int(math.Ceil(float64(size) / float64(blockSize)))` for a
positive block size and a size below `2^53`, where the floating-point quotient
rounds to the exact ceiling. -/
def numBlocks (size blockSize : Nat) : Nat := (size + blockSize - 1) / blockSize

/-- The inner loop of `syncLocalIndex`: `n` reads of at most `blockSize` bytes
from what is left of the file; a read at the end of the file is the error
`io.EOF`. -/
def scanBlocks (GetBlockHashString : List UInt8 → String) (blockSize : Nat) (name : String) :
    Nat → List UInt8 → GoMap (List String) → Except String (GoMap (List String))
  | 0, _, hashMap => .ok hashMap
  | n + 1, unread, hashMap =>
    if unread = [] then .error "EOF"
    else
      let byteSlice := unread.take blockSize
      let hash := GetBlockHashString byteSlice
      scanBlocks GetBlockHashString blockSize name n (unread.drop blockSize)
        (hashMap.set name ((hashMap.get? name).getD [] ++ [hash]))

/-- The outer loop of `syncLocalIndex` from given values of `*localIndex` and `hashMap`. -/
def syncLocalIndexLoop (GetBlockHashString : List UInt8 → String) (client : RPCClient)
    (fs : FileSys) :
    List FileInfo → GoMap FileMetaData → GoMap (List String) →
      GoMap FileMetaData × Except String (GoMap (List String))
  | [], localIndex, hashMap => (localIndex, .ok hashMap)
  | file :: rest, localIndex, hashMap =>
    if file.Name = DEFAULT_META_FILENAME then
      syncLocalIndexLoop GetBlockHashString client fs rest localIndex hashMap
    else
      let n := numBlocks file.Size client.BlockSize
      match fs.files.get? (client.BaseDir ++ "/" ++ file.Name) with
      | none => (localIndex, .error "open: no such file or directory")
      | some content =>
        match scanBlocks GetBlockHashString client.BlockSize file.Name n content hashMap with
        | .error err => (localIndex, .error err)
        | .ok hashMap =>
          let hashes := (hashMap.get? file.Name).getD []
          match localIndex.get? file.Name with
          | some val =>
            if hashes ≠ val.BlockHashList then
              syncLocalIndexLoop GetBlockHashString client fs rest
                (localIndex.set file.Name
                  { val with BlockHashList := hashes, Version := addInt32 val.Version 1 })
                hashMap
            else
              syncLocalIndexLoop GetBlockHashString client fs rest localIndex hashMap
          | none =>
            syncLocalIndexLoop GetBlockHashString client fs rest
              (localIndex.set file.Name
                { Filename := file.Name, Version := 1, BlockHashList := hashes })
              hashMap

/-- `syncLocalIndex`: the new value of `*localIndex`, and the scanned map or an error. -/
def syncLocalIndex (GetBlockHashString : List UInt8 → String) (client : RPCClient)
    (fs : FileSys) (localIndex : GoMap FileMetaData) (files : List FileInfo) :
    GoMap FileMetaData × Except String (GoMap (List String)) :=
  syncLocalIndexLoop GetBlockHashString client fs files localIndex []

/-- `checkDeletedFiles`: the new value of `*localIndex` (the error is always nil). -/
def checkDeletedFiles (localIndex : GoMap FileMetaData) (hashMap : GoMap (List String)) :
    GoMap FileMetaData :=
  localIndex.map fun (file, metaData) =>
    if (hashMap.get? file).isNone then
      if metaData.BlockHashList.length ≠ 1 ∨ metaData.BlockHashList.head? ≠ some "0" then
        (file, { metaData with Version := addInt32 metaData.Version 1, BlockHashList := ["0"] })
      else (file, metaData)
    else (file, metaData)

/-- The block loop of `uploadFile`: `n` reads of at most `BlockSize` bytes,
each block put on the server the ring names; `none` is the panic of the ring
built from no address. -/
def uploadBlocks {σ : Type} (GetBlockHashString : List UInt8 → String) (Hash : String → String)
    (srv : RPCServer σ) (client : RPCClient) (blockStoreAddrs : List String) :
    Nat → List UInt8 → σ → Option σ
  | 0, _, s => some s
  | n + 1, unread, s =>
    let byteSlice := unread.take client.BlockSize
    let block : Block := { BlockData := byteSlice, BlockSize := wrapInt32 byteSlice.length }
    let hashCode := GetBlockHashString byteSlice
    let c := NewConsistentHashRing Hash blockStoreAddrs
    match c.GetResponsibleServer hashCode with
    | none => none
    | some blockStoreAddr =>
      let r := RPCClient.PutBlock srv s block blockStoreAddr false
      uploadBlocks GetBlockHashString Hash srv client blockStoreAddrs n
        (unread.drop client.BlockSize) r.1

/-- `uploadFile`: the server state, the new value of `*localMetaData` and the
returned error; `none` is a panic. -/
def uploadFile {σ : Type} (GetBlockHashString : List UInt8 → String) (Hash : String → String)
    (srv : RPCServer σ) (client : RPCClient) (fs : FileSys) (s : σ)
    (localMetaData : FileMetaData) (blockStoreAddrs : List String) :
    Option (σ × FileMetaData × Option String) :=
  let path := client.BaseDir ++ "/" ++ localMetaData.Filename
  let latestVersion : Int := 0
  match fs.files.get? path with
  | none =>
    let r := RPCClient.UpdateFile srv s localMetaData latestVersion
    some (r.1, { localMetaData with Version := r.2.2 }, r.2.1)
  | some content =>
    let n := numBlocks content.length client.BlockSize
    match uploadBlocks GetBlockHashString Hash srv client blockStoreAddrs n content s with
    | none => none
    | some s₁ =>
      let r := RPCClient.UpdateFile srv s₁ localMetaData latestVersion
      let localMetaData :=
        if r.2.1.isSome then { localMetaData with Version := -1 } else localMetaData
      some (r.1, { localMetaData with Version := r.2.2 }, none)

/-- The block loop of `downloadFile`: the payloads of the blocks fetched for
the hashes, appended to `data`; a block that cannot be fetched adds nothing. -/
def downloadBlocks {σ : Type} (Hash : String → String) (srv : RPCServer σ)
    (blockStoreAddrs : List String) :
    List String → σ → List UInt8 → Option (σ × List UInt8)
  | [], s, data => some (s, data)
  | hash :: rest, s, data =>
    let c := NewConsistentHashRing Hash blockStoreAddrs
    match c.GetResponsibleServer hash with
    | none => none
    | some blockStoreAddr =>
      let r := RPCClient.GetBlock srv s hash blockStoreAddr { BlockData := [], BlockSize := 0 }
      downloadBlocks Hash srv blockStoreAddrs rest r.1 (data ++ r.2.2.BlockData)

/-- `downloadFile`: the disk, the server state, the new value of
`*localMetaData` and the returned error; `none` is a panic.  `os.Remove`
fails exactly when there is no file at the path. -/
def downloadFile {σ : Type} (Hash : String → String) (srv : RPCServer σ) (client : RPCClient)
    (fs : FileSys) (s : σ) (remoteMetaData : FileMetaData) (blockStoreAddrs : List String) :
    Option (FileSys × σ × FileMetaData × Option String) :=
  let path := client.BaseDir ++ "/" ++ remoteMetaData.Filename
  let created : Bool := !(fs.denied.contains path)
  let fs₁ : FileSys := if created then { fs with files := fs.files.set path [] } else fs
  let localMetaData := remoteMetaData
  if remoteMetaData.BlockHashList.length = 1 ∧ remoteMetaData.BlockHashList.head? = some "0" then
    match fs₁.files.get? path with
    | none => some (fs₁, s, localMetaData, some "remove: no such file or directory")
    | some _ => some ({ fs₁ with files := fs₁.files.erase path }, s, localMetaData, none)
  else
    match downloadBlocks Hash srv blockStoreAddrs remoteMetaData.BlockHashList s [] with
    | none => none
    | some (s', data) =>
      let fs₂ : FileSys := if created then { fs₁ with files := fs₁.files.set path data } else fs₁
      some (fs₂, s', localMetaData, none)

/-- The condition under which `downloadNewFiles` downloads a remote entry,
given the lookup of its filename in the local index. -/
def pullCondition (l : Option FileMetaData) (remoteMetaData : FileMetaData) : Prop :=
  match l with
  | none => True
  | some localMetaData =>
    localMetaData.Version < remoteMetaData.Version ∨
      (localMetaData.Version = remoteMetaData.Version ∧
        localMetaData.BlockHashList ≠ remoteMetaData.BlockHashList)

instance (l : Option FileMetaData) (r : FileMetaData) : Decidable (pullCondition l r) := by
  unfold pullCondition
  cases l <;> infer_instance

/-- `downloadNewFiles` over the entries of `*remoteIndex` in iteration order:
the disk, the server state, the new value of `*localIndex` and the returned
error; `none` is a panic. -/
def downloadNewFiles {σ : Type} (Hash : String → String) (srv : RPCServer σ)
    (client : RPCClient) (blockStoreAddrs : List String) :
    GoMap FileMetaData → FileSys → σ → GoMap FileMetaData →
      Option (FileSys × σ × GoMap FileMetaData × Option String)
  | [], fs, s, localIndex => some (fs, s, localIndex, none)
  | (filename, remoteMetaData) :: rest, fs, s, localIndex =>
    match localIndex.get? filename with
    | some localMetaData =>
      if localMetaData.Version < remoteMetaData.Version ∨
          (localMetaData.Version = remoteMetaData.Version ∧
            localMetaData.BlockHashList ≠ remoteMetaData.BlockHashList) then
        match downloadFile Hash srv client fs s remoteMetaData blockStoreAddrs with
        | none => none
        | some (fs', s', l', some err) => some (fs', s', localIndex.set filename l', some err)
        | some (fs', s', l', none) =>
          downloadNewFiles Hash srv client blockStoreAddrs rest fs' s'
            (localIndex.set filename l')
      else
        downloadNewFiles Hash srv client blockStoreAddrs rest fs s localIndex
    | none =>
      let localIndex := localIndex.set filename { Filename := "", Version := 0, BlockHashList := [] }
      match downloadFile Hash srv client fs s remoteMetaData blockStoreAddrs with
      | none => none
      | some (fs', s', l', some err) => some (fs', s', localIndex.set filename l', some err)
      | some (fs', s', l', none) =>
        downloadNewFiles Hash srv client blockStoreAddrs rest fs' s'
          (localIndex.set filename l')

/-- `uploadNewFiles` over the entries of `*localIndex` in iteration order: the
server state, the new entries of `*localIndex` (the loop writes only through
the pointer of the entry it visits) and the returned error; `none` is a panic. -/
def uploadNewFiles {σ : Type} (GetBlockHashString : List UInt8 → String)
    (Hash : String → String) (srv : RPCServer σ) (client : RPCClient) (fs : FileSys)
    (remoteIndex : GoMap FileMetaData) (blockStoreAddrs : List String) :
    GoMap FileMetaData → σ → Option (σ × GoMap FileMetaData × Option String)
  | [], s => some (s, [], none)
  | (fileName, localMetaData) :: rest, s =>
    match remoteIndex.get? fileName with
    | some remoteMetaData =>
      if remoteMetaData.Version < localMetaData.Version then
        match uploadFile GetBlockHashString Hash srv client fs s localMetaData
            blockStoreAddrs with
        | none => none
        | some (s', l', some err) => some (s', (fileName, l') :: rest, some err)
        | some (s', l', none) =>
          match uploadNewFiles GetBlockHashString Hash srv client fs remoteIndex
              blockStoreAddrs rest s' with
          | none => none
          | some (s'', rest', err) => some (s'', (fileName, l') :: rest', err)
      else
        match uploadNewFiles GetBlockHashString Hash srv client fs remoteIndex
            blockStoreAddrs rest s with
        | none => none
        | some (s'', rest', err) => some (s'', (fileName, localMetaData) :: rest', err)
    | none =>
      match uploadFile GetBlockHashString Hash srv client fs s localMetaData
          blockStoreAddrs with
      | none => none
      | some (s', l', some err) => some (s', (fileName, l') :: rest, some err)
      | some (s', l', none) =>
        match uploadNewFiles GetBlockHashString Hash srv client fs remoteIndex
            blockStoreAddrs rest s' with
        | none => none
        | some (s'', rest', err) => some (s'', (fileName, l') :: rest', err)

/-- What one run of `ClientSync` leaves behind: the disk, the server state,
the local index in memory, and whether the run reached `WriteMetaFile`. -/
structure SyncResult (σ : Type) where
  fs : FileSys
  server : σ
  localIndex : GoMap FileMetaData
  written : Bool

/-- `ClientSync` from the scan to the pull.  The inputs `files`, `localIndex`,
`remoteIndex` and `blockStoreAddrs` are what `ioutil.ReadDir`,
`LoadMetaFromMetaFile`, `GetFileInfoMap` and `GetBlockStoreAddrs` returned
(the stub of `RPCClient.GetBlockStoreAddrs` in the source is still
`panic("todo")`, so the address list is given).  `none` is a panic; a phase
that returns an error ends the run before the index is written. -/
def ClientSync {σ : Type} (GetBlockHashString : List UInt8 → String) (Hash : String → String)
    (srv : RPCServer σ) (client : RPCClient) (fs : FileSys) (s : σ) (files : List FileInfo)
    (localIndex remoteIndex : GoMap FileMetaData) (blockStoreAddrs : List String) :
    Option (SyncResult σ) :=
  match syncLocalIndex GetBlockHashString client fs localIndex files with
  | (localIndex, .error _) => some ⟨fs, s, localIndex, false⟩
  | (localIndex, .ok hashMap) =>
    let localIndex := checkDeletedFiles localIndex hashMap
    match uploadNewFiles GetBlockHashString Hash srv client fs remoteIndex blockStoreAddrs
        localIndex s with
    | none => none
    | some (s, localIndex, some _) => some ⟨fs, s, localIndex, false⟩
    | some (s, localIndex, none) =>
      match downloadNewFiles Hash srv client blockStoreAddrs remoteIndex fs s localIndex with
      | none => none
      | some (fs, s, localIndex, some _) => some ⟨fs, s, localIndex, false⟩
      | some (fs, s, localIndex, none) => some ⟨fs, s, localIndex, true⟩

/-- A remote call as seen on the wire. -/
inductive RPCCall where
  | UpdateFile (fileMetaData : FileMetaData)
  | PutBlock (blockStoreAddr : String) (block : Block)
  | GetBlock (blockStoreAddr : String) (blockHash : String)
  deriving DecidableEq, Repr

/-- A server that records every call it receives, in order, next to its own state. -/
def RPCServer.logged {σ : Type} (srv : RPCServer σ) : RPCServer (σ × List RPCCall) where
  UpdateFile s fileMetaData :=
    let r := srv.UpdateFile s.1 fileMetaData
    ((r.1, s.2 ++ [RPCCall.UpdateFile fileMetaData]), r.2)
  PutBlock s blockStoreAddr block :=
    let r := srv.PutBlock s.1 blockStoreAddr block
    ((r.1, s.2 ++ [RPCCall.PutBlock blockStoreAddr block]), r.2)
  GetBlock s blockStoreAddr blockHash :=
    let r := srv.GetBlock s.1 blockStoreAddr blockHash
    ((r.1, s.2 ++ [RPCCall.GetBlock blockStoreAddr blockHash]), r.2)

/-! ## Lemmas on Go maps -/

theorem GoMap.get?_set_self {V : Type} (m : GoMap V) (k : String) (v : V) :
    (m.set k v).get? k = some v := by
  induction m with
  | nil => simp [GoMap.set, GoMap.get?]
  | cons p t ih =>
    obtain ⟨k', v'⟩ := p
    by_cases h : k' = k
    · simp [GoMap.set, GoMap.get?, h]
    · simp [GoMap.set, GoMap.get?, h, ih]

theorem GoMap.get?_set_of_ne {V : Type} (m : GoMap V) (k k2 : String) (v : V) (hne : k2 ≠ k) :
    (m.set k v).get? k2 = m.get? k2 := by
  induction m with
  | nil => simp [GoMap.set, GoMap.get?, Ne.symm hne]
  | cons p t ih =>
    obtain ⟨k', v'⟩ := p
    by_cases h : k' = k
    · subst h
      simp [GoMap.set, GoMap.get?, Ne.symm hne]
    · by_cases h2 : k' = k2
      · subst h2
        simp [GoMap.set, GoMap.get?, hne]
      · simp [GoMap.set, GoMap.get?, h, h2, ih]

theorem wrapInt32_of_isInt32 (x : Int) (h : isInt32 x) : wrapInt32 x = x := by
  unfold isInt32 at h
  unfold wrapInt32
  omega

/-! ## Metadata store -/

/-- C1: when `meta.Filename` is present with stored version `currentVersion`,
`UpdateFile` with `meta.Version == currentVersion + 1` (the `int32` sum the
code computes) stores `meta` under that filename, leaves every other entry as
it was and returns `meta.Version`; with any other version it returns `-1` and
the store is unchanged.  The `int32` sum is the mathematical one whenever
`currentVersion` is below the largest `int32`. -/
theorem updateFile_present (m : MetaStore) (fileMeta cur : FileMetaData)
    (hcur : m.FileMetaMap.get? fileMeta.Filename = some cur) :
    (fileMeta.Version = addInt32 cur.Version 1 →
      (m.UpdateFile fileMeta).2 = fileMeta.Version ∧
      (m.UpdateFile fileMeta).1.FileMetaMap.get? fileMeta.Filename = some fileMeta ∧
      ∀ k, k ≠ fileMeta.Filename →
        (m.UpdateFile fileMeta).1.FileMetaMap.get? k = m.FileMetaMap.get? k) ∧
    (fileMeta.Version ≠ addInt32 cur.Version 1 →
      (m.UpdateFile fileMeta).2 = -1 ∧ (m.UpdateFile fileMeta).1 = m) ∧
    (isInt32 cur.Version → cur.Version ≠ 2 ^ 31 - 1 →
      addInt32 cur.Version 1 = cur.Version + 1) := by
  refine ⟨fun hv => ?_, fun hv => ?_, fun hr hmax => ?_⟩
  · simp only [MetaStore.UpdateFile, hcur, hv, if_true]
    exact ⟨trivial, GoMap.get?_set_self _ _ _, fun k hk => GoMap.get?_set_of_ne _ _ _ _ hk⟩
  · simp [MetaStore.UpdateFile, hcur, hv]
  · unfold isInt32 at hr
    unfold addInt32 wrapInt32
    omega

/-- Witness for C1: a store holding `a.txt` at version 3 and an update to version 4. -/
theorem updateFile_present_witness :
    (((4 : Int) = addInt32 3 1 →
      (MetaStore.UpdateFile ⟨[("a.txt", ⟨"a.txt", 3, ["h1"]⟩)], ["s1"]⟩ ⟨"a.txt", 4, ["h2"]⟩).2 = 4 ∧
      (MetaStore.UpdateFile ⟨[("a.txt", ⟨"a.txt", 3, ["h1"]⟩)], ["s1"]⟩
        ⟨"a.txt", 4, ["h2"]⟩).1.FileMetaMap.get? "a.txt" = some ⟨"a.txt", 4, ["h2"]⟩ ∧
      ∀ k, k ≠ "a.txt" →
        (MetaStore.UpdateFile ⟨[("a.txt", ⟨"a.txt", 3, ["h1"]⟩)], ["s1"]⟩
          ⟨"a.txt", 4, ["h2"]⟩).1.FileMetaMap.get? k
          = GoMap.get? [("a.txt", (⟨"a.txt", 3, ["h1"]⟩ : FileMetaData))] k) ∧
    ((4 : Int) ≠ addInt32 3 1 →
      (MetaStore.UpdateFile ⟨[("a.txt", ⟨"a.txt", 3, ["h1"]⟩)], ["s1"]⟩ ⟨"a.txt", 4, ["h2"]⟩).2 = -1 ∧
      (MetaStore.UpdateFile ⟨[("a.txt", ⟨"a.txt", 3, ["h1"]⟩)], ["s1"]⟩ ⟨"a.txt", 4, ["h2"]⟩).1
        = ⟨[("a.txt", ⟨"a.txt", 3, ["h1"]⟩)], ["s1"]⟩) ∧
    (isInt32 3 → (3 : Int) ≠ 2 ^ 31 - 1 → addInt32 3 1 = 3 + 1)) :=
  updateFile_present ⟨[("a.txt", ⟨"a.txt", 3, ["h1"]⟩)], ["s1"]⟩ ⟨"a.txt", 4, ["h2"]⟩
    ⟨"a.txt", 3, ["h1"]⟩ (by decide)

/-- C2 (counterexample): on an empty store, `UpdateFile` of a file at version 5
is accepted: it returns 5, not `-1`, and the file is inserted. -/
theorem updateFile_absent_accepts_version_5 :
    GoMap.get? ([] : GoMap FileMetaData) "a.txt" = none ∧ (5 : Int) ≠ 1 ∧
    (MetaStore.UpdateFile ⟨[], ["s1"]⟩ ⟨"a.txt", 5, ["h1"]⟩).2 = 5 ∧
    (MetaStore.UpdateFile ⟨[], ["s1"]⟩ ⟨"a.txt", 5, ["h1"]⟩).2 ≠ -1 ∧
    (MetaStore.UpdateFile ⟨[], ["s1"]⟩ ⟨"a.txt", 5, ["h1"]⟩).1.FileMetaMap
      = [("a.txt", ⟨"a.txt", 5, ["h1"]⟩)] ∧
    (MetaStore.UpdateFile ⟨[], ["s1"]⟩ ⟨"a.txt", 5, ["h1"]⟩).1.FileMetaMap ≠ [] := by
  decide

/-- C2 (amended): when `meta.Filename` is absent, `UpdateFile` inserts `meta`
and returns `meta.Version` whatever that version is (version 1 included), and
every other entry is unchanged. -/
theorem updateFile_absent (m : MetaStore) (fileMeta : FileMetaData)
    (habs : m.FileMetaMap.get? fileMeta.Filename = none) :
    (m.UpdateFile fileMeta).2 = fileMeta.Version ∧
    (m.UpdateFile fileMeta).1.FileMetaMap.get? fileMeta.Filename = some fileMeta ∧
    ∀ k, k ≠ fileMeta.Filename →
      (m.UpdateFile fileMeta).1.FileMetaMap.get? k = m.FileMetaMap.get? k := by
  simp only [MetaStore.UpdateFile, habs]
  exact ⟨trivial, GoMap.get?_set_self _ _ _, fun k hk => GoMap.get?_set_of_ne _ _ _ _ hk⟩

/-- Witness for C2 (amended): a first upload at version 1 into a store holding another file. -/
theorem updateFile_absent_witness :
    (MetaStore.UpdateFile ⟨[("b.txt", ⟨"b.txt", 2, ["h0"]⟩)], ["s1"]⟩ ⟨"a.txt", 1, ["h1"]⟩).2 = 1 ∧
    (MetaStore.UpdateFile ⟨[("b.txt", ⟨"b.txt", 2, ["h0"]⟩)], ["s1"]⟩
      ⟨"a.txt", 1, ["h1"]⟩).1.FileMetaMap.get? "a.txt" = some ⟨"a.txt", 1, ["h1"]⟩ ∧
    ∀ k, k ≠ "a.txt" →
      (MetaStore.UpdateFile ⟨[("b.txt", ⟨"b.txt", 2, ["h0"]⟩)], ["s1"]⟩
        ⟨"a.txt", 1, ["h1"]⟩).1.FileMetaMap.get? k
        = GoMap.get? [("b.txt", (⟨"b.txt", 2, ["h0"]⟩ : FileMetaData))] k :=
  updateFile_absent ⟨[("b.txt", ⟨"b.txt", 2, ["h0"]⟩)], ["s1"]⟩ ⟨"a.txt", 1, ["h1"]⟩ (by decide)

/-- C3 (counterexample): with `a.txt` stored at the largest `int32` version,
an update carrying the smallest `int32` version is accepted (the return value
is not `-1`) and the stored version drops from 2147483647 to -2147483648. -/
theorem updateFile_version_wraps :
    isInt32 2147483647 ∧ isInt32 (-2147483648) ∧
    GoMap.get? [("a.txt", (⟨"a.txt", 2147483647, ["h1"]⟩ : FileMetaData))] "a.txt"
      = some ⟨"a.txt", 2147483647, ["h1"]⟩ ∧
    (MetaStore.UpdateFile ⟨[("a.txt", ⟨"a.txt", 2147483647, ["h1"]⟩)], ["s1"]⟩
      ⟨"a.txt", -2147483648, ["h2"]⟩).2 ≠ -1 ∧
    (MetaStore.UpdateFile ⟨[("a.txt", ⟨"a.txt", 2147483647, ["h1"]⟩)], ["s1"]⟩
      ⟨"a.txt", -2147483648, ["h2"]⟩).1.FileMetaMap.get? "a.txt"
      = some ⟨"a.txt", -2147483648, ["h2"]⟩ ∧
    (-2147483648 : Int) < 2147483647 ∧ (-2147483648 : Int) ≠ 2147483647 + 1 := by
  decide

/-- C3 (amended): for a filename stored at an `int32` version below
`2^31 - 1`, after any `UpdateFile` call the filename is still stored, its
version is not smaller than before, and it is the previous version plus 1
whenever the call is for that filename and returns a value other than `-1`. -/
theorem updateFile_version_monotone (m : MetaStore) (f : String) (cur fileMeta : FileMetaData)
    (hcur : m.FileMetaMap.get? f = some cur)
    (hr : isInt32 cur.Version) (hmax : cur.Version < 2 ^ 31 - 1) :
    ∃ cur', (m.UpdateFile fileMeta).1.FileMetaMap.get? f = some cur' ∧
      cur.Version ≤ cur'.Version ∧
      (fileMeta.Filename = f → (m.UpdateFile fileMeta).2 ≠ -1 →
        cur'.Version = cur.Version + 1) := by
  have hadd : addInt32 cur.Version 1 = cur.Version + 1 := by
    unfold isInt32 at hr
    unfold addInt32 wrapInt32
    omega
  by_cases hf : fileMeta.Filename = f
  · subst hf
    by_cases hv : fileMeta.Version = addInt32 cur.Version 1
    · refine ⟨fileMeta, ?_, ?_, ?_⟩
      · simp only [MetaStore.UpdateFile, hcur, hv, if_true]
        exact GoMap.get?_set_self _ _ _
      · rw [hv, hadd]; omega
      · intro _ _; rw [hv, hadd]
    · refine ⟨cur, ?_, le_refl _, ?_⟩
      · simp [MetaStore.UpdateFile, hcur, hv]
      · intro _ hret
        simp [MetaStore.UpdateFile, hcur, hv] at hret
  · refine ⟨cur, ?_, le_refl _, fun h => absurd h hf⟩
    have hne : f ≠ fileMeta.Filename := fun h => hf h.symm
    cases hlook : m.FileMetaMap.get? fileMeta.Filename with
    | none =>
      simp only [MetaStore.UpdateFile, hlook]
      rw [GoMap.get?_set_of_ne _ _ _ _ hne]; exact hcur
    | some c =>
      by_cases hv : fileMeta.Version = addInt32 c.Version 1
      · simp only [MetaStore.UpdateFile, hlook, hv, if_true]
        rw [GoMap.get?_set_of_ne _ _ _ _ hne]; exact hcur
      · simp [MetaStore.UpdateFile, hlook, hv, hcur]

/-- Witness for C3 (amended): `a.txt` at version 3 is updated to version 4. -/
theorem updateFile_version_monotone_witness :
    ∃ cur', (MetaStore.UpdateFile ⟨[("a.txt", ⟨"a.txt", 3, ["h1"]⟩)], ["s1"]⟩
        ⟨"a.txt", 4, ["h2"]⟩).1.FileMetaMap.get? "a.txt" = some cur' ∧
      (3 : Int) ≤ cur'.Version ∧
      ("a.txt" = "a.txt" →
        (MetaStore.UpdateFile ⟨[("a.txt", ⟨"a.txt", 3, ["h1"]⟩)], ["s1"]⟩ ⟨"a.txt", 4, ["h2"]⟩).2 ≠ -1 →
        cur'.Version = 3 + 1) :=
  updateFile_version_monotone ⟨[("a.txt", ⟨"a.txt", 3, ["h1"]⟩)], ["s1"]⟩ "a.txt"
    ⟨"a.txt", 3, ["h1"]⟩ ⟨"a.txt", 4, ["h2"]⟩ (by decide) (by decide) (by decide)

/-! ## Consistent hash ring -/

theorem ConsistentHashRing.foldl_hashList (Hash : String → String) (addrs : List String)
    (c : ConsistentHashRing) :
    (addrs.foldl (ConsistentHashRing.addServer Hash) c).HashList
      = c.HashList ++ addrs.map Hash := by
  induction addrs generalizing c with
  | nil => simp
  | cons a rest ih =>
    simp [List.foldl, ih, ConsistentHashRing.addServer]

theorem ConsistentHashRing.foldl_serverMap (Hash : String → String) (addrs : List String)
    (c : ConsistentHashRing) (t : String) :
    (∃ a ∈ addrs, Hash a = t ∧
      (addrs.foldl (ConsistentHashRing.addServer Hash) c).ServerMap.get? t = some a) ∨
    ((∀ a ∈ addrs, Hash a ≠ t) ∧
      (addrs.foldl (ConsistentHashRing.addServer Hash) c).ServerMap.get? t
        = c.ServerMap.get? t) := by
  induction addrs generalizing c with
  | nil => right; simp
  | cons a rest ih =>
    rcases ih (ConsistentHashRing.addServer Hash c a) with ⟨b, hb, hbt, hget⟩ | ⟨hno, hget⟩
    · left
      exact ⟨b, List.mem_cons_of_mem _ hb, hbt, by simpa [List.foldl] using hget⟩
    · by_cases hat : Hash a = t
      · left
        refine ⟨a, List.mem_cons_self _ _, hat, ?_⟩
        simp only [List.foldl]
        rw [hget]
        simp only [ConsistentHashRing.addServer, hat]
        exact GoMap.get?_set_self _ _ _
      · right
        refine ⟨?_, ?_⟩
        · intro b hb
          rcases List.mem_cons.mp hb with rfl | hb
          · exact hat
          · exact hno b hb
        · simp only [List.foldl]
          rw [hget]
          simp only [ConsistentHashRing.addServer]
          exact GoMap.get?_set_of_ne _ _ _ _ (fun h => hat h.symm)

theorem newRing_hashList (Hash : String → String) (addrs : List String) :
    (NewConsistentHashRing Hash addrs).HashList = sortStrings (addrs.map Hash) := by
  simp [NewConsistentHashRing, ConsistentHashRing.foldl_hashList]

theorem newRing_serverMap (Hash : String → String) (addrs : List String) (t : String)
    (ht : t ∈ addrs.map Hash) :
    ∃ a ∈ addrs, Hash a = t ∧ (NewConsistentHashRing Hash addrs).ServerMap.get? t = some a := by
  rcases ConsistentHashRing.foldl_serverMap Hash addrs { ServerMap := [], HashList := [] } t with
    ⟨a, ha, hat, hget⟩ | ⟨hno, _⟩
  · exact ⟨a, ha, hat, by simpa [NewConsistentHashRing] using hget⟩
  · obtain ⟨a, ha, hat⟩ := List.mem_map.mp ht
    exact absurd hat (hno a ha)

theorem sortStrings_sorted (l : List String) : (sortStrings l).Sorted (· ≤ ·) :=
  List.sorted_insertionSort _ l

theorem sortStrings_perm (l : List String) : (sortStrings l).Perm l :=
  List.perm_insertionSort _ l

theorem mem_sortStrings {l : List String} {x : String} : x ∈ sortStrings l ↔ x ∈ l :=
  (sortStrings_perm l).mem_iff

theorem sortStrings_eq_of_perm {l₁ l₂ : List String} (h : l₁.Perm l₂) :
    sortStrings l₁ = sortStrings l₂ :=
  List.eq_of_perm_of_sorted
    (((sortStrings_perm l₁).trans h).trans (sortStrings_perm l₂).symm)
    (sortStrings_sorted l₁) (sortStrings_sorted l₂)

theorem ConsistentHashRing.searchLoop_some (target : String) (l : List String) (t : String)
    (h : ConsistentHashRing.searchLoop target l = some t) :
    t ∈ l ∧ target ≤ t ∧ (l.Sorted (· ≤ ·) → ∀ x ∈ l, target ≤ x → t ≤ x) := by
  induction l with
  | nil => simp [ConsistentHashRing.searchLoop] at h
  | cons a rest ih =>
    by_cases hgt : target > a
    · simp only [ConsistentHashRing.searchLoop, hgt, if_true] at h
      obtain ⟨hmem, hle, hmin⟩ := ih h
      refine ⟨List.mem_cons_of_mem _ hmem, hle, ?_⟩
      intro hs x hx htx
      rcases List.mem_cons.mp hx with rfl | hx
      · exact absurd (lt_of_lt_of_le hgt htx) (lt_irrefl _)
      · exact hmin (List.sorted_cons.mp hs).2 x hx htx
    · simp only [ConsistentHashRing.searchLoop, hgt, if_false, Option.some.injEq] at h
      subst h
      refine ⟨List.mem_cons_self _ _, not_lt.mp hgt, ?_⟩
      intro hs x hx _
      rcases List.mem_cons.mp hx with rfl | hx
      · exact le_refl _
      · exact (List.sorted_cons.mp hs).1 x hx

theorem ConsistentHashRing.searchLoop_none (target : String) (l : List String)
    (h : ConsistentHashRing.searchLoop target l = none) : ∀ x ∈ l, x < target := by
  induction l with
  | nil => simp
  | cons a rest ih =>
    by_cases hgt : target > a
    · simp only [ConsistentHashRing.searchLoop, hgt, if_true] at h
      intro x hx
      rcases List.mem_cons.mp hx with rfl | hx
      · exact hgt
      · exact ih h x hx
    · simp [ConsistentHashRing.searchLoop, hgt] at h

/-- C4: on a ring built from a non-empty address list, `GetResponsibleServer h`
returns the address `a` that `ServerMap` holds for a token `t = Hash a`, where
`t` is the smallest token with `h ≤ t` (so `t = h` selects `t`), or, when every
token is below `h`, the smallest token of the ring. -/
theorem getResponsibleServer_spec (Hash : String → String) (addrs : List String) (h : String)
    (hne : addrs ≠ []) :
    ∃ a t, a ∈ addrs ∧ Hash a = t ∧
      (NewConsistentHashRing Hash addrs).ServerMap.get? t = some a ∧
      (NewConsistentHashRing Hash addrs).GetResponsibleServer h = some a ∧
      ((h ≤ t ∧ ∀ a' ∈ addrs, h ≤ Hash a' → t ≤ Hash a') ∨
       ((∀ a' ∈ addrs, Hash a' < h) ∧ ∀ a' ∈ addrs, t ≤ Hash a')) := by
  have hL := newRing_hashList Hash addrs
  have hsorted := sortStrings_sorted (addrs.map Hash)
  cases hs : ConsistentHashRing.searchLoop h (sortStrings (addrs.map Hash)) with
  | some t =>
    obtain ⟨hmem, hle, hmin⟩ := ConsistentHashRing.searchLoop_some h _ t hs
    obtain ⟨a, ha, hat, hget⟩ := newRing_serverMap Hash addrs t (mem_sortStrings.mp hmem)
    refine ⟨a, t, ha, hat, hget, ?_, Or.inl ⟨hle, ?_⟩⟩
    · simp [ConsistentHashRing.GetResponsibleServer, ConsistentHashRing.Search, hL, hs, hget]
    · intro a' ha' hle'
      exact hmin hsorted (Hash a') (mem_sortStrings.mpr (List.mem_map_of_mem _ ha')) hle'
  | none =>
    have hall := ConsistentHashRing.searchLoop_none h _ hs
    cases hl : sortStrings (addrs.map Hash) with
    | nil =>
      have hp := sortStrings_perm (addrs.map Hash)
      rw [hl] at hp
      have := hp.symm.eq_nil
      simp at this
      exact absurd this hne
    | cons t rest =>
      have hmem : t ∈ sortStrings (addrs.map Hash) := by rw [hl]; exact List.mem_cons_self _ _
      obtain ⟨a, ha, hat, hget⟩ := newRing_serverMap Hash addrs t (mem_sortStrings.mp hmem)
      refine ⟨a, t, ha, hat, hget, ?_, Or.inr ⟨?_, ?_⟩⟩
      · rw [hl] at hs
        simp [ConsistentHashRing.GetResponsibleServer, ConsistentHashRing.Search, hL, hs, hl,
          hget]
      · intro a' ha'
        exact hall (Hash a') (mem_sortStrings.mpr (List.mem_map_of_mem _ ha'))
      · intro a' ha'
        have hm : Hash a' ∈ t :: rest := by
          rw [← hl]; exact mem_sortStrings.mpr (List.mem_map_of_mem _ ha')
        rw [hl] at hsorted
        rcases List.mem_cons.mp hm with heq | hm
        · exact le_of_eq heq.symm
        · exact (List.sorted_cons.mp hsorted).1 _ hm

/-- Witness for C4: three servers and a block hash, with the identity standing for the hash. -/
theorem getResponsibleServer_spec_witness :
    ∃ a t, a ∈ ["s2", "s1", "s3"] ∧ (fun x => x) a = t ∧
      (NewConsistentHashRing (fun x => x) ["s2", "s1", "s3"]).ServerMap.get? t = some a ∧
      (NewConsistentHashRing (fun x => x) ["s2", "s1", "s3"]).GetResponsibleServer "s15" = some a ∧
      (("s15" ≤ t ∧ ∀ a' ∈ ["s2", "s1", "s3"], "s15" ≤ (fun x => x) a' → t ≤ (fun x => x) a') ∨
       ((∀ a' ∈ ["s2", "s1", "s3"], (fun x => x) a' < "s15") ∧
         ∀ a' ∈ ["s2", "s1", "s3"], t ≤ (fun x => x) a')) :=
  getResponsibleServer_spec (fun x => x) ["s2", "s1", "s3"] "s15" (by decide)

/-- C5: two address lists that are permutations of each other give rings that
route every block hash to the same address, `Hash` being free of collisions on
the addresses given. -/
theorem getResponsibleServer_perm (Hash : String → String) (addrs₁ addrs₂ : List String)
    (h : String) (hperm : addrs₁.Perm addrs₂) (hne : addrs₁ ≠ [])
    (hinj : ∀ a ∈ addrs₁, ∀ b ∈ addrs₁, Hash a = Hash b → a = b) :
    (NewConsistentHashRing Hash addrs₁).GetResponsibleServer h
      = (NewConsistentHashRing Hash addrs₂).GetResponsibleServer h ∧
    ∃ a ∈ addrs₁, (NewConsistentHashRing Hash addrs₁).GetResponsibleServer h = some a := by
  have hL₁ := newRing_hashList Hash addrs₁
  have hL₂ := newRing_hashList Hash addrs₂
  have hsame : sortStrings (addrs₂.map Hash) = sortStrings (addrs₁.map Hash) :=
    sortStrings_eq_of_perm (hperm.symm.map Hash)
  rw [hsame] at hL₂
  have hkey : ∀ t, t ∈ addrs₁.map Hash →
      ∃ a ∈ addrs₁, (NewConsistentHashRing Hash addrs₁).ServerMap.get? t = some a ∧
        (NewConsistentHashRing Hash addrs₂).ServerMap.get? t = some a := by
    intro t ht
    obtain ⟨a, ha, hat, hget⟩ := newRing_serverMap Hash addrs₁ t ht
    obtain ⟨b, hb, hbt, hget'⟩ := newRing_serverMap Hash addrs₂ t ((hperm.map Hash).mem_iff.mp ht)
    have hab : a = b := hinj a ha b (hperm.mem_iff.mpr hb) (hat.trans hbt.symm)
    subst hab
    exact ⟨a, ha, hget, hget'⟩
  cases hs : ConsistentHashRing.searchLoop h (sortStrings (addrs₁.map Hash)) with
  | some t =>
    obtain ⟨hmem, _, _⟩ := ConsistentHashRing.searchLoop_some h _ t hs
    obtain ⟨a, ha, hg₁, hg₂⟩ := hkey t (mem_sortStrings.mp hmem)
    refine ⟨?_, a, ha, ?_⟩ <;>
      simp [ConsistentHashRing.GetResponsibleServer, ConsistentHashRing.Search, hL₁, hL₂, hs,
        hg₁, hg₂]
  | none =>
    cases hl : sortStrings (addrs₁.map Hash) with
    | nil =>
      have hp := sortStrings_perm (addrs₁.map Hash)
      rw [hl] at hp
      have := hp.symm.eq_nil
      simp at this
      exact absurd this hne
    | cons t rest =>
      have hmem : t ∈ sortStrings (addrs₁.map Hash) := by rw [hl]; exact List.mem_cons_self _ _
      obtain ⟨a, ha, hg₁, hg₂⟩ := hkey t (mem_sortStrings.mp hmem)
      rw [hl] at hs
      refine ⟨?_, a, ha, ?_⟩ <;>
        simp [ConsistentHashRing.GetResponsibleServer, ConsistentHashRing.Search, hL₁, hL₂, hs,
          hl, hg₁, hg₂]

/-- Witness for C5: the same three servers given in two orders. -/
theorem getResponsibleServer_perm_witness :
    (NewConsistentHashRing (fun x => x) ["s2", "s1", "s3"]).GetResponsibleServer "s15"
      = (NewConsistentHashRing (fun x => x) ["s3", "s2", "s1"]).GetResponsibleServer "s15" ∧
    ∃ a ∈ ["s2", "s1", "s3"],
      (NewConsistentHashRing (fun x => x) ["s2", "s1", "s3"]).GetResponsibleServer "s15" = some a :=
  getResponsibleServer_perm (fun x => x) ["s2", "s1", "s3"] ["s3", "s2", "s1"] "s15"
    (by decide) (by decide) (fun _ _ _ _ h => h)

/-! ## Block store -/

theorem BlockStore.hasBlocks_foldl (bs : BlockStore) (hs acc : List String) :
    hs.foldl
      (fun hashes hash => if (bs.BlockMap.get? hash).isSome then hashes ++ [hash] else hashes) acc
      = acc ++ hs.filter (fun hash => (bs.BlockMap.get? hash).isSome) := by
  induction hs generalizing acc with
  | nil => simp
  | cons x rest ih =>
    by_cases hx : (bs.BlockMap.get? x).isSome
    · simp [List.foldl, ih, hx]
    · simp [List.foldl, ih, hx]

/-- C6: `PutBlock b` always returns the flag `true` without error; afterwards
`GetBlock` on the hash of `b`'s payload returns `b` without error, and the
entry under every other hash is as it was. -/
theorem putBlock_getBlock (GetBlockHashString : List UInt8 → String) (bs : BlockStore)
    (b : Block) :
    (bs.PutBlock GetBlockHashString b).2 = .ok true ∧
    (bs.PutBlock GetBlockHashString b).1.GetBlock (GetBlockHashString b.BlockData) = .ok b ∧
    ∀ h, h ≠ GetBlockHashString b.BlockData →
      (bs.PutBlock GetBlockHashString b).1.BlockMap.get? h = bs.BlockMap.get? h := by
  refine ⟨rfl, ?_, fun h hne => ?_⟩
  · simp [BlockStore.PutBlock, BlockStore.GetBlock, GoMap.get?_set_self]
  · simp only [BlockStore.PutBlock]
    exact GoMap.get?_set_of_ne _ _ _ _ hne

/-- C7 (counterexample): with `h1` resident, `HasBlocks ["h1", "h1"]` returns
`["h1", "h1"]`: the resident hash occurs twice in the output. -/
theorem hasBlocks_keeps_duplicates :
    (GoMap.get? [("h1", (⟨[1, 2], 2⟩ : Block))] "h1").isSome = true ∧
    BlockStore.HasBlocks ⟨[("h1", ⟨[1, 2], 2⟩)]⟩ ["h1", "h1"] = ["h1", "h1"] ∧
    (BlockStore.HasBlocks ⟨[("h1", ⟨[1, 2], 2⟩)]⟩ ["h1", "h1"]).count "h1" ≠ 1 := by
  decide

/-- C7 (amended): `HasBlocks` returns the input list restricted to the
resident hashes, in input order: a resident hash occurs in the output as many
times as in the input, a hash that is not resident does not occur. -/
theorem hasBlocks_filter (bs : BlockStore) (hs : List String) :
    bs.HasBlocks hs = hs.filter (fun hash => (bs.BlockMap.get? hash).isSome) ∧
    ∀ h, (bs.HasBlocks hs).count h
      = if (bs.BlockMap.get? h).isSome then hs.count h else 0 := by
  have hf : bs.HasBlocks hs = hs.filter (fun hash => (bs.BlockMap.get? hash).isSome) := by
    simp [BlockStore.HasBlocks, BlockStore.hasBlocks_foldl]
  refine ⟨hf, fun h => ?_⟩
  rw [hf]
  by_cases hr : (bs.BlockMap.get? h).isSome = true
  · rw [if_pos hr]
    exact List.count_filter hr
  · rw [if_neg hr]
    apply List.count_eq_zero.mpr
    intro hmem
    exact hr (List.mem_filter.mp hmem).2

/-! ## Client: scanning the base directory -/

theorem numBlocks_zero (blockSize : Nat) (hpos : 0 < blockSize) : numBlocks 0 blockSize = 0 := by
  unfold numBlocks
  apply Nat.div_eq_of_lt
  omega

/-- C8 (what the code does): for a positive block size, scanning a directory
that holds one zero-byte file, with an empty local index, performs no read:
the file gets no key in the scanned map, its index entry is created at
version 1 with no hash at all, and `checkDeletedFiles` then turns that entry
into a tombstone at version 2. -/
theorem syncLocalIndex_empty_file (GetBlockHashString : List UInt8 → String)
    (client : RPCClient) (fs : FileSys) (name : String)
    (hpos : 0 < client.BlockSize) (hname : name ≠ DEFAULT_META_FILENAME)
    (hfile : fs.files.get? (client.BaseDir ++ "/" ++ name) = some []) :
    syncLocalIndex GetBlockHashString client fs [] [⟨name, 0⟩]
      = ([(name, ⟨name, 1, []⟩)], .ok []) ∧
    GoMap.get? ([] : GoMap (List String)) name = none ∧
    checkDeletedFiles [(name, ⟨name, 1, []⟩)] [] = [(name, ⟨name, 2, ["0"]⟩)] := by
  refine ⟨?_, rfl, ?_⟩
  · simp [syncLocalIndex, syncLocalIndexLoop, hname, hfile, numBlocks_zero _ hpos, scanBlocks,
      GoMap.get?, GoMap.set]
  · have h2 : addInt32 1 1 = 2 := by decide
    simp [checkDeletedFiles, GoMap.get?, h2]

/-- Witness for C8: block size 4096 and the zero-byte file `empty.txt`. -/
theorem syncLocalIndex_empty_file_witness :
    syncLocalIndex (fun _ => "e3b0c442") ⟨"localhost:8081", "base", 4096⟩
        ⟨[("base/empty.txt", [])], []⟩ [] [⟨"empty.txt", 0⟩]
      = ([("empty.txt", ⟨"empty.txt", 1, []⟩)], .ok []) ∧
    GoMap.get? ([] : GoMap (List String)) "empty.txt" = none ∧
    checkDeletedFiles [("empty.txt", ⟨"empty.txt", 1, []⟩)] []
      = [("empty.txt", ⟨"empty.txt", 2, ["0"]⟩)] :=
  syncLocalIndex_empty_file (fun _ => "e3b0c442") ⟨"localhost:8081", "base", 4096⟩
    ⟨[("base/empty.txt", [])], []⟩ "empty.txt" (by decide) (by decide) (by decide)

/-! ## Client: pushing a file -/

theorem getResponsibleServer_singleton (Hash : String → String) (a h : String) :
    (NewConsistentHashRing Hash [a]).GetResponsibleServer h = some a := by
  by_cases hgt : h > Hash a <;>
    simp [NewConsistentHashRing, ConsistentHashRing.addServer, sortStrings,
      ConsistentHashRing.GetResponsibleServer, ConsistentHashRing.Search,
      ConsistentHashRing.searchLoop, hgt, GoMap.set, GoMap.get?]

theorem uploadBlocks_one_block :
    uploadBlocks (fun _ => "h") (fun a => a) (Cluster.server (fun _ => "h"))
        ⟨"localhost:8081", "base", 4096⟩ ["s1"] (numBlocks [(7 : UInt8)].length 4096) [7]
        ⟨⟨[("f.txt", ⟨"f.txt", 4, ["hA"]⟩)], ["s1"]⟩, [("s1", ⟨[]⟩)]⟩
      = some ⟨⟨[("f.txt", ⟨"f.txt", 4, ["hA"]⟩)], ["s1"]⟩, [("s1", ⟨[("h", ⟨[7], 1⟩)]⟩)]⟩ := by
  have hn : numBlocks [(7 : UInt8)].length 4096 = 1 := by decide
  have hw : wrapInt32 1 = 1 := by decide
  rw [hn]
  simp [uploadBlocks, getResponsibleServer_singleton, RPCClient.PutBlock, Cluster.server,
    BlockStore.PutBlock, GoMap.get?, GoMap.set, hw]

/-- C9 (counterexample): the server holds `f.txt` at version 4 and the client
pushes its own version 4 of the file; `UpdateFile` answers `-1` and
`uploadFile` leaves the local entry with version `-1`, not with its version 4. -/
theorem uploadFile_rejected_sets_minus_one :
    ((Cluster.server (fun _ => "h")).UpdateFile
        ⟨⟨[("f.txt", ⟨"f.txt", 4, ["hA"]⟩)], ["s1"]⟩, [("s1", ⟨[("h", ⟨[7], 1⟩)]⟩)]⟩
        ⟨"f.txt", 4, ["h"]⟩).2 = .ok (-1) ∧
    uploadFile (fun _ => "h") (fun a => a) (Cluster.server (fun _ => "h"))
        ⟨"localhost:8081", "base", 4096⟩ ⟨[("base/f.txt", [7])], []⟩
        ⟨⟨[("f.txt", ⟨"f.txt", 4, ["hA"]⟩)], ["s1"]⟩, [("s1", ⟨[]⟩)]⟩
        ⟨"f.txt", 4, ["h"]⟩ ["s1"]
      = some (⟨⟨[("f.txt", ⟨"f.txt", 4, ["hA"]⟩)], ["s1"]⟩, [("s1", ⟨[("h", ⟨[7], 1⟩)]⟩)]⟩,
          ⟨"f.txt", -1, ["h"]⟩, none) ∧
    (⟨"f.txt", -1, ["h"]⟩ : FileMetaData) ≠ ⟨"f.txt", 4, ["h"]⟩ := by
  refine ⟨rfl, ?_, by decide⟩
  have hfile : GoMap.get? [("base/f.txt", [(7 : UInt8)])] ("base" ++ "/" ++ "f.txt") = some [7] :=
    rfl
  have hup := uploadBlocks_one_block
  simp only [uploadFile, hfile, hup]
  rfl

/-- C9 (amended): when the `UpdateFile` call made by `uploadFile` (on the
server state `s₁` reached after the block uploads, if any) answers a version
`v`, be it the rejection `-1` or an accepted version, `uploadFile` returns with
the local entry's version set to `v` and its filename and block hash list as
before. -/
theorem uploadFile_sets_returned_version {σ : Type} (GetBlockHashString : List UInt8 → String)
    (Hash : String → String) (srv : RPCServer σ) (client : RPCClient) (fs : FileSys) (s s₁ : σ)
    (l : FileMetaData) (blockStoreAddrs : List String) (v : Int)
    (hs₁ : (fs.files.get? (client.BaseDir ++ "/" ++ l.Filename) = none ∧ s₁ = s) ∨
      ∃ content, fs.files.get? (client.BaseDir ++ "/" ++ l.Filename) = some content ∧
        uploadBlocks GetBlockHashString Hash srv client blockStoreAddrs
          (numBlocks content.length client.BlockSize) content s = some s₁)
    (hv : (srv.UpdateFile s₁ l).2 = .ok v) :
    ∃ l', uploadFile GetBlockHashString Hash srv client fs s l blockStoreAddrs
        = some ((srv.UpdateFile s₁ l).1, l', none) ∧
      l'.Version = v ∧ l'.Filename = l.Filename ∧ l'.BlockHashList = l.BlockHashList := by
  have hrpc : RPCClient.UpdateFile srv s₁ l 0 = ((srv.UpdateFile s₁ l).1, none, v) := by
    unfold RPCClient.UpdateFile
    cases hr : srv.UpdateFile s₁ l with
    | mk s' res =>
      rw [hr] at hv
      simp only at hv
      subst hv
      rfl
  rcases hs₁ with ⟨hnone, rfl⟩ | ⟨content, hsome, hup⟩
  · exact ⟨{ l with Version := v }, by simp [uploadFile, hnone, hrpc], rfl, rfl, rfl⟩
  · exact ⟨{ l with Version := v }, by simp [uploadFile, hsome, hup, hrpc], rfl, rfl, rfl⟩

/-- Witness for C9 (amended): the server holds `f.txt` at version 4 and accepts version 5. -/
theorem uploadFile_sets_returned_version_witness :
    ∃ l', uploadFile (fun _ => "h") (fun a => a) (Cluster.server (fun _ => "h"))
        ⟨"localhost:8081", "base", 4096⟩ ⟨[("base/f.txt", [7])], []⟩
        ⟨⟨[("f.txt", ⟨"f.txt", 4, ["hA"]⟩)], ["s1"]⟩, [("s1", ⟨[]⟩)]⟩
        ⟨"f.txt", 5, ["h"]⟩ ["s1"]
        = some (((Cluster.server (fun _ => "h")).UpdateFile
            ⟨⟨[("f.txt", ⟨"f.txt", 4, ["hA"]⟩)], ["s1"]⟩, [("s1", ⟨[("h", ⟨[7], 1⟩)]⟩)]⟩
            ⟨"f.txt", 5, ["h"]⟩).1, l', none) ∧
      l'.Version = 5 ∧ l'.Filename = "f.txt" ∧ l'.BlockHashList = ["h"] :=
  uploadFile_sets_returned_version (fun _ => "h") (fun a => a) (Cluster.server (fun _ => "h"))
    ⟨"localhost:8081", "base", 4096⟩ ⟨[("base/f.txt", [7])], []⟩
    ⟨⟨[("f.txt", ⟨"f.txt", 4, ["hA"]⟩)], ["s1"]⟩, [("s1", ⟨[]⟩)]⟩
    ⟨⟨[("f.txt", ⟨"f.txt", 4, ["hA"]⟩)], ["s1"]⟩, [("s1", ⟨[("h", ⟨[7], 1⟩)]⟩)]⟩
    ⟨"f.txt", 5, ["h"]⟩ ["s1"] 5 (Or.inr ⟨[7], rfl, uploadBlocks_one_block⟩) rfl

/-! ## Client: pulling remote files -/

theorem GoMap.get?_eq_none_of_not_mem_keys {V : Type} (m : GoMap V) (k : String)
    (h : k ∉ m.keys) : m.get? k = none := by
  induction m with
  | nil => rfl
  | cons p t ih =>
    obtain ⟨k', v'⟩ := p
    simp only [GoMap.keys, List.map_cons, List.mem_cons, not_or] at h
    have hne : ¬ k' = k := fun e => h.1 e.symm
    simp only [GoMap.get?, hne, if_false]
    exact ih h.2

theorem getResponsibleServer_isSome (Hash : String → String) (addrs : List String) (h : String)
    (hne : addrs ≠ []) :
    ∃ a, (NewConsistentHashRing Hash addrs).GetResponsibleServer h = some a := by
  have hL := newRing_hashList Hash addrs
  cases hl : sortStrings (addrs.map Hash) with
  | nil =>
    have hp := sortStrings_perm (addrs.map Hash)
    rw [hl] at hp
    have := hp.symm.eq_nil
    simp at this
    exact absurd this hne
  | cons t rest =>
    cases hs : ConsistentHashRing.searchLoop h (t :: rest) with
    | some u =>
      exact ⟨((NewConsistentHashRing Hash addrs).ServerMap.get? u).getD "", by
        simp [ConsistentHashRing.GetResponsibleServer, ConsistentHashRing.Search, hL, hl, hs]⟩
    | none =>
      exact ⟨((NewConsistentHashRing Hash addrs).ServerMap.get? t).getD "", by
        simp [ConsistentHashRing.GetResponsibleServer, ConsistentHashRing.Search, hL, hl, hs]⟩

theorem downloadBlocks_isSome {σ : Type} (Hash : String → String) (srv : RPCServer σ)
    (addrs : List String) (hne : addrs ≠ []) (hashes : List String) (s : σ)
    (data : List UInt8) :
    ∃ r, downloadBlocks Hash srv addrs hashes s data = some r := by
  induction hashes generalizing s data with
  | nil => exact ⟨_, rfl⟩
  | cons h rest ih =>
    obtain ⟨a, ha⟩ := getResponsibleServer_isSome Hash addrs h hne
    simp only [downloadBlocks, ha]
    exact ih _ _

theorem downloadFile_ok {σ : Type} (Hash : String → String) (srv : RPCServer σ)
    (client : RPCClient) (fs : FileSys) (s : σ) (r : FileMetaData) (addrs : List String)
    (hne : addrs ≠ []) (hd : fs.denied = []) :
    ∃ fs' s', downloadFile Hash srv client fs s r addrs = some (fs', s', r, none) ∧
      fs'.denied = [] := by
  by_cases ht : r.BlockHashList.length = 1 ∧ r.BlockHashList.head? = some "0"
  · refine ⟨FileSys.mk (GoMap.erase (GoMap.set fs.files (client.BaseDir ++ "/" ++ r.Filename) [])
        (client.BaseDir ++ "/" ++ r.Filename)) fs.denied, s, ?_, hd⟩
    simp [downloadFile, hd, ht, GoMap.get?_set_self]
  · obtain ⟨⟨s', data⟩, hb⟩ := downloadBlocks_isSome Hash srv addrs hne r.BlockHashList s []
    refine ⟨FileSys.mk (GoMap.set (GoMap.set fs.files (client.BaseDir ++ "/" ++ r.Filename) [])
        (client.BaseDir ++ "/" ++ r.Filename) data) fs.denied, s', ?_, hd⟩
    simp [downloadFile, hd, ht, hb]

theorem downloadNewFiles_get? {σ : Type} (Hash : String → String) (srv : RPCServer σ)
    (client : RPCClient) (addrs : List String) (hne : addrs ≠ [])
    (R : GoMap FileMetaData) (hnd : R.keys.Nodup) (fs : FileSys) (s : σ)
    (L : GoMap FileMetaData) (hd : fs.denied = []) :
    ∃ fs' s' L', downloadNewFiles Hash srv client addrs R fs s L = some (fs', s', L', none) ∧
      ∀ f, L'.get? f =
        match R.get? f with
        | some r => if pullCondition (L.get? f) r then some r else L.get? f
        | none => L.get? f := by
  induction R generalizing fs s L with
  | nil => exact ⟨fs, s, L, rfl, fun f => rfl⟩
  | cons p rest ih =>
    obtain ⟨k, r⟩ := p
    have hk : k ∉ GoMap.keys rest := (List.nodup_cons.mp hnd).1
    have hrest : (GoMap.keys rest).Nodup := (List.nodup_cons.mp hnd).2
    have hknone : GoMap.get? rest k = none := GoMap.get?_eq_none_of_not_mem_keys rest k hk
    obtain ⟨fs₁, s₁, hdl, hd₁⟩ := downloadFile_ok Hash srv client fs s r addrs hne hd
    -- the index after a download of `k`
    have hpulled : ∀ (L₂ : GoMap FileMetaData),
        (∀ f, L₂.get? f = if f = k then some r else L.get? f) →
        pullCondition (L.get? k) r →
        ∃ fs' s' L', downloadNewFiles Hash srv client addrs rest fs₁ s₁ L₂
            = some (fs', s', L', none) ∧
          ∀ f, L'.get? f =
            match GoMap.get? ((k, r) :: rest) f with
            | some r => if pullCondition (L.get? f) r then some r else L.get? f
            | none => L.get? f := by
      intro L₂ hL₂ hpull
      obtain ⟨fs', s', L', hrun, hget⟩ := ih hrest fs₁ s₁ L₂ hd₁
      refine ⟨fs', s', L', hrun, fun f => ?_⟩
      rw [hget f]
      by_cases hf : k = f
      · subst hf
        simp [GoMap.get?, hknone, hL₂, hpull]
      · have hf' : ¬ f = k := fun e => hf e.symm
        simp [GoMap.get?, hf, hL₂, hf']
    cases hlook : L.get? k with
    | some l =>
      by_cases hc : l.Version < r.Version ∨ (l.Version = r.Version ∧
          l.BlockHashList ≠ r.BlockHashList)
      · have hpull : pullCondition (L.get? k) r := by rw [hlook]; exact hc
        obtain ⟨fs', s', L', hrun, hget⟩ := hpulled (L.set k r) (fun f => by
          by_cases hf : f = k
          · subst hf; simp [GoMap.get?_set_self]
          · simp [GoMap.get?_set_of_ne _ _ _ _ hf, hf]) hpull
        refine ⟨fs', s', L', ?_, hget⟩
        simp only [downloadNewFiles, hlook, hc, if_true, hdl]
        exact hrun
      · have hpull : ¬ pullCondition (L.get? k) r := by rw [hlook]; exact hc
        obtain ⟨fs', s', L', hrun, hget⟩ := ih hrest fs s L hd
        refine ⟨fs', s', L', ?_, fun f => ?_⟩
        · simp only [downloadNewFiles, hlook, hc, if_false]
          exact hrun
        · rw [hget f]
          by_cases hf : k = f
          · subst hf
            simp [GoMap.get?, hknone, hpull]
          · simp [GoMap.get?, hf]
    | none =>
      have hpull : pullCondition (L.get? k) r := by rw [hlook]; trivial
      obtain ⟨fs', s', L', hrun, hget⟩ := hpulled
        ((L.set k { Filename := "", Version := 0, BlockHashList := [] }).set k r) (fun f => by
          by_cases hf : f = k
          · subst hf; simp [GoMap.get?_set_self]
          · simp [GoMap.get?_set_of_ne _ _ _ _ hf, hf]) hpull
      refine ⟨fs', s', L', ?_, hget⟩
      simp only [downloadNewFiles, hlook, hdl]
      exact hrun

/-- C10: with at least one block server configured and no path at which a file
cannot be created, `downloadNewFiles` returns without error for every
iteration order of the remote index, and afterwards every file of `R` whose
pull condition holds against `L` has in the local index the entry of `R`,
while every other filename has the entry (or the absence) it had in `L`. -/
theorem downloadNewFiles_spec {σ : Type} (Hash : String → String) (srv : RPCServer σ)
    (client : RPCClient) (addrs : List String) (R : GoMap FileMetaData) (fs : FileSys) (s : σ)
    (L : GoMap FileMetaData)
    (hne : addrs ≠ []) (hnd : R.keys.Nodup) (hd : fs.denied = []) :
    ∃ fs' s' L', downloadNewFiles Hash srv client addrs R fs s L = some (fs', s', L', none) ∧
      (∀ f r, R.get? f = some r → pullCondition (L.get? f) r → L'.get? f = some r) ∧
      (∀ f, (∀ r, R.get? f = some r → ¬ pullCondition (L.get? f) r) →
        L'.get? f = L.get? f) := by
  obtain ⟨fs', s', L', hrun, hget⟩ :=
    downloadNewFiles_get? Hash srv client addrs hne R hnd fs s L hd
  refine ⟨fs', s', L', hrun, ?_, ?_⟩
  · intro f r hr hpull
    rw [hget f, hr]
    simp [hpull]
  · intro f hno
    rw [hget f]
    cases hr : R.get? f with
    | none => rfl
    | some r => simp [hno r hr]

/-- Witness for C10: the remote index holds a newer `f.txt`, a tombstone for
`g.txt` and the `h.txt` that the local index already has. -/
theorem downloadNewFiles_spec_witness :
    ∃ fs' s' L',
      downloadNewFiles (fun a => a) (Cluster.server (fun _ => "h"))
          ⟨"localhost:8081", "base", 4096⟩ ["s1"]
          [("f.txt", ⟨"f.txt", 4, ["h"]⟩), ("g.txt", ⟨"g.txt", 2, ["0"]⟩),
            ("h.txt", ⟨"h.txt", 2, ["h2"]⟩)]
          ⟨[("base/g.txt", [1, 2, 3])], []⟩
          ⟨⟨[], ["s1"]⟩, [("s1", ⟨[("h", ⟨[7], 1⟩)]⟩)]⟩
          [("h.txt", ⟨"h.txt", 2, ["h2"]⟩), ("g.txt", ⟨"g.txt", 1, ["h3"]⟩)]
        = some (fs', s', L', none) ∧
      (∀ f r,
        GoMap.get? [("f.txt", (⟨"f.txt", 4, ["h"]⟩ : FileMetaData)),
            ("g.txt", ⟨"g.txt", 2, ["0"]⟩), ("h.txt", ⟨"h.txt", 2, ["h2"]⟩)] f = some r →
        pullCondition (GoMap.get? [("h.txt", (⟨"h.txt", 2, ["h2"]⟩ : FileMetaData)),
            ("g.txt", ⟨"g.txt", 1, ["h3"]⟩)] f) r →
        L'.get? f = some r) ∧
      (∀ f,
        (∀ r, GoMap.get? [("f.txt", (⟨"f.txt", 4, ["h"]⟩ : FileMetaData)),
            ("g.txt", ⟨"g.txt", 2, ["0"]⟩), ("h.txt", ⟨"h.txt", 2, ["h2"]⟩)] f = some r →
          ¬ pullCondition (GoMap.get? [("h.txt", (⟨"h.txt", 2, ["h2"]⟩ : FileMetaData)),
            ("g.txt", ⟨"g.txt", 1, ["h3"]⟩)] f) r) →
        L'.get? f = GoMap.get? [("h.txt", (⟨"h.txt", 2, ["h2"]⟩ : FileMetaData)),
            ("g.txt", ⟨"g.txt", 1, ["h3"]⟩)] f) :=
  downloadNewFiles_spec (fun a => a) (Cluster.server (fun _ => "h"))
    ⟨"localhost:8081", "base", 4096⟩ ["s1"]
    [("f.txt", ⟨"f.txt", 4, ["h"]⟩), ("g.txt", ⟨"g.txt", 2, ["0"]⟩),
      ("h.txt", ⟨"h.txt", 2, ["h2"]⟩)]
    ⟨[("base/g.txt", [1, 2, 3])], []⟩
    ⟨⟨[], ["s1"]⟩, [("s1", ⟨[("h", ⟨[7], 1⟩)]⟩)]⟩
    [("h.txt", ⟨"h.txt", 2, ["h2"]⟩), ("g.txt", ⟨"g.txt", 1, ["h3"]⟩)]
    (by decide) (by decide) rfl

/-! ## Client: detecting local deletions -/

theorem not_tombstone_iff (l : List String) :
    (l.length ≠ 1 ∨ l.head? ≠ some "0") ↔ l ≠ ["0"] := by
  cases l with
  | nil => simp
  | cons a t =>
    cases t with
    | nil => simp
    | cons b u => simp

theorem GoMap.get?_mapVal {V : Type} (G : String × V → V) (m : GoMap V) (f : String) :
    GoMap.get? (m.map fun p => (p.1, G p)) f = (GoMap.get? m f).map (fun v => G (f, v)) := by
  induction m with
  | nil => rfl
  | cons p t ih =>
    obtain ⟨k, v⟩ := p
    by_cases hk : k = f
    · subst hk
      simp [GoMap.get?]
    · simp only [List.map_cons, GoMap.get?, hk, if_false]
      exact ih

theorem GoMap.keys_mapVal {V : Type} (G : String × V → V) (m : GoMap V) :
    GoMap.keys (m.map fun p => (p.1, G p)) = GoMap.keys m := by
  simp [GoMap.keys, List.map_map, Function.comp_def]

theorem checkDeletedFiles_eq_map (L : GoMap FileMetaData) (hashMap : GoMap (List String)) :
    checkDeletedFiles L hashMap =
      L.map fun p => (p.1,
        (fun (file : String) (metaData : FileMetaData) =>
          if (hashMap.get? file).isNone then
            if metaData.BlockHashList.length ≠ 1 ∨ metaData.BlockHashList.head? ≠ some "0" then
              { metaData with Version := addInt32 metaData.Version 1, BlockHashList := ["0"] }
            else metaData
          else metaData) p.1 p.2) := by
  unfold checkDeletedFiles
  apply List.map_congr_left
  rintro ⟨k, m⟩ _
  dsimp only
  split <;> [split; skip] <;> rfl

theorem checkDeletedFiles_keys (L : GoMap FileMetaData) (hashMap : GoMap (List String)) :
    GoMap.keys (checkDeletedFiles L hashMap) = GoMap.keys L := by
  rw [checkDeletedFiles_eq_map]
  exact GoMap.keys_mapVal _ L

theorem checkDeletedFiles_get? (L : GoMap FileMetaData) (hashMap : GoMap (List String))
    (f : String) :
    GoMap.get? (checkDeletedFiles L hashMap) f =
      match GoMap.get? L f with
      | none => none
      | some m =>
        if hashMap.get? f = none ∧ m.BlockHashList ≠ ["0"] then
          some { m with Version := addInt32 m.Version 1, BlockHashList := ["0"] }
        else some m := by
  rw [checkDeletedFiles_eq_map]
  refine (GoMap.get?_mapVal _ L f).trans ?_
  cases hL : GoMap.get? L f with
  | none => rfl
  | some m =>
    simp only [Option.map_some']
    by_cases hs : GoMap.get? hashMap f = none
    · by_cases ht : m.BlockHashList = ["0"]
      · have hnt := (not_tombstone_iff m.BlockHashList).not.mpr (not_not.mpr ht)
        simp [hs, ht]
      · have hnt := (not_tombstone_iff m.BlockHashList).mpr ht
        rw [if_pos (by simp [hs]), if_pos hnt, if_pos ⟨hs, ht⟩]
    · have hs' : ¬ ((GoMap.get? hashMap f).isNone = true) := by
        simpa [Option.isNone_iff_eq_none] using hs
      rw [if_neg hs', if_neg (fun h => hs h.1)]

/-- C11: `checkDeletedFiles` neither adds nor removes a filename; an entry
whose filename has no key in the scanned map and whose hash list is not
`["0"]` gets its version incremented by the `Version++` of the code and its
hash list set to `["0"]` (so it does change), its filename kept; every other
entry, scanned or already a tombstone, is left exactly as it was.  The
increment is the mathematical `+ 1` for every `int32` version below the
largest one. -/
theorem checkDeletedFiles_spec (L : GoMap FileMetaData) (hashMap : GoMap (List String)) :
    GoMap.keys (checkDeletedFiles L hashMap) = GoMap.keys L ∧
    (∀ f m, L.get? f = some m → hashMap.get? f = none → m.BlockHashList ≠ ["0"] →
      (checkDeletedFiles L hashMap).get? f
          = some { Filename := m.Filename, Version := addInt32 m.Version 1,
                   BlockHashList := ["0"] } ∧
        (checkDeletedFiles L hashMap).get? f ≠ some m) ∧
    (∀ f m, L.get? f = some m → (hashMap.get? f ≠ none ∨ m.BlockHashList = ["0"]) →
      (checkDeletedFiles L hashMap).get? f = some m) ∧
    (∀ f, L.get? f = none → (checkDeletedFiles L hashMap).get? f = none) ∧
    (∀ v, isInt32 v → v ≠ 2 ^ 31 - 1 → addInt32 v 1 = v + 1) := by
  refine ⟨checkDeletedFiles_keys L hashMap, ?_, ?_, ?_, ?_⟩
  · intro f m hm hs ht
    have hget := checkDeletedFiles_get? L hashMap f
    rw [hm] at hget
    simp only [hs, ht, ne_eq, not_false_eq_true, and_self, if_true] at hget
    refine ⟨hget, ?_⟩
    rw [hget]
    intro heq
    have hl := congrArg FileMetaData.BlockHashList (Option.some.inj heq)
    exact ht hl.symm
  · intro f m hm hcase
    have hget := checkDeletedFiles_get? L hashMap f
    rw [hm] at hget
    have hcond : ¬ (hashMap.get? f = none ∧ m.BlockHashList ≠ ["0"]) := by
      rintro ⟨h1, h2⟩
      rcases hcase with h | h
      · exact h h1
      · exact h2 h
    simpa only [hcond, if_false] using hget
  · intro f hnone
    have hget := checkDeletedFiles_get? L hashMap f
    rw [hnone] at hget
    exact hget
  · intro v hr hmax
    unfold isInt32 at hr
    unfold addInt32 wrapInt32
    omega

/-! ## Client: a sync with nothing to do -/

/-- C12 (what the code does): the base directory holds the zero-byte file
`e.txt`, and the local index, the remote index and the metadata server all
hold `e.txt` as the tombstone at version 2, which is the state that a first
`ClientSync` of that directory leaves behind.  The scanned map is empty, so
every scanned file agrees with `L`, the only entry of `L` has no scanned file
and is a tombstone, and `R` equals `L`.  Yet the pass calls `UpdateFile` with
`e.txt` at version 4 and removes `e.txt` from the disk, the local index
ending as it began. -/
theorem clientSync_empty_file_not_noop :
    -- a first sync of the directory reaches the state
    (ClientSync (fun _ => "e3b0c442") (fun a => a) (Cluster.server (fun _ => "e3b0c442")).logged
        ⟨"localhost:8081", "base", 4096⟩ ⟨[("base/e.txt", [])], []⟩
        (⟨⟨[], ["s1"]⟩, [("s1", ⟨[]⟩)]⟩, []) [⟨"e.txt", 0⟩] [] [] ["s1"]).map
        (fun r => (r.fs.files, r.server.1, r.localIndex, r.written))
      = some ([("base/e.txt", [])],
          ⟨⟨[("e.txt", ⟨"e.txt", 2, ["0"]⟩)], ["s1"]⟩, [("s1", ⟨[]⟩)]⟩,
          [("e.txt", ⟨"e.txt", 2, ["0"]⟩)], true) ∧
    -- the scanned map of the second sync is empty
    (syncLocalIndex (fun _ => "e3b0c442") ⟨"localhost:8081", "base", 4096⟩
        ⟨[("base/e.txt", [])], []⟩ [("e.txt", ⟨"e.txt", 2, ["0"]⟩)] [⟨"e.txt", 0⟩]).2.toOption
      = some [] ∧
    -- the second sync
    (ClientSync (fun _ => "e3b0c442") (fun a => a) (Cluster.server (fun _ => "e3b0c442")).logged
        ⟨"localhost:8081", "base", 4096⟩ ⟨[("base/e.txt", [])], []⟩
        (⟨⟨[("e.txt", ⟨"e.txt", 2, ["0"]⟩)], ["s1"]⟩, [("s1", ⟨[]⟩)]⟩, []) [⟨"e.txt", 0⟩]
        [("e.txt", ⟨"e.txt", 2, ["0"]⟩)] [("e.txt", ⟨"e.txt", 2, ["0"]⟩)] ["s1"]).map
        (fun r => (r.fs.files, r.server.2, r.localIndex, r.written))
      = some ([], [RPCCall.UpdateFile ⟨"e.txt", 4, ["0"]⟩],
          [("e.txt", ⟨"e.txt", 2, ["0"]⟩)], true) ∧
    GoMap.get? ([] : GoMap (List UInt8)) "base/e.txt"
      ≠ GoMap.get? [("base/e.txt", [])] "base/e.txt" := by
  refine ⟨?_, ?_, ?_, ?_⟩
  · rfl
  · rfl
  · rfl
  · decide

/-! ### The pass away from zero-byte files -/

theorem scanBlocks_get?_of_ne (GetBlockHashString : List UInt8 → String) (blockSize : Nat)
    (name k : String) (hk : k ≠ name) (n : Nat) (unread : List UInt8)
    (hashMap hashMap' : GoMap (List String))
    (h : scanBlocks GetBlockHashString blockSize name n unread hashMap = .ok hashMap') :
    hashMap'.get? k = hashMap.get? k := by
  induction n generalizing unread hashMap with
  | zero =>
    simp only [scanBlocks, Except.ok.injEq] at h
    rw [h]
  | succ n ih =>
    by_cases hu : unread = []
    · simp [scanBlocks, hu] at h
    · simp only [scanBlocks, hu, if_false] at h
      rw [ih _ _ h]
      exact GoMap.get?_set_of_ne _ _ _ _ hk

theorem syncLocalIndexLoop_hashMap_frame (GetBlockHashString : List UInt8 → String)
    (client : RPCClient) (fs : FileSys) (k : String) (files : List FileInfo)
    (L L' : GoMap FileMetaData) (hashMap hashMap' : GoMap (List String))
    (hk : ∀ file ∈ files, file.Name ≠ k)
    (h : syncLocalIndexLoop GetBlockHashString client fs files L hashMap = (L', .ok hashMap')) :
    hashMap'.get? k = hashMap.get? k := by
  induction files generalizing L hashMap with
  | nil =>
    simp only [syncLocalIndexLoop, Prod.mk.injEq, Except.ok.injEq] at h
    rw [h.2]
  | cons file rest ih =>
    have hrest : ∀ f ∈ rest, f.Name ≠ k := fun f hf => hk f (List.mem_cons_of_mem _ hf)
    have hfile : k ≠ file.Name := fun e => hk file (List.mem_cons_self _ _) e.symm
    by_cases hname : file.Name = DEFAULT_META_FILENAME
    · simp only [syncLocalIndexLoop, hname, if_true] at h
      exact ih _ _ hrest h
    · simp only [syncLocalIndexLoop, hname, if_false] at h
      cases hfs : fs.files.get? (client.BaseDir ++ "/" ++ file.Name) with
      | none => simp [hfs] at h
      | some content =>
        simp only [hfs] at h
        cases hsb : scanBlocks GetBlockHashString client.BlockSize file.Name
            (numBlocks file.Size client.BlockSize) content hashMap with
        | error e => simp [hsb] at h
        | ok hm₁ =>
          simp only [hsb] at h
          have hframe := scanBlocks_get?_of_ne GetBlockHashString client.BlockSize file.Name k
            hfile _ _ _ _ hsb
          cases hL : L.get? file.Name with
          | none =>
            simp only [hL] at h
            rw [ih _ _ hrest h, hframe]
          | some val =>
            simp only [hL] at h
            split at h
            · rw [ih _ _ hrest h, hframe]
            · rw [ih _ _ hrest h, hframe]

theorem syncLocalIndexLoop_unchanged (GetBlockHashString : List UInt8 → String)
    (client : RPCClient) (fs : FileSys) (files : List FileInfo)
    (L L' : GoMap FileMetaData) (hashMap hashMap' : GoMap (List String))
    (hnames : (files.map FileInfo.Name).Nodup)
    (hfiles : ∀ file ∈ files, file.Name ≠ DEFAULT_META_FILENAME →
      ∃ m, L.get? file.Name = some m ∧ hashMap'.get? file.Name = some m.BlockHashList)
    (h : syncLocalIndexLoop GetBlockHashString client fs files L hashMap = (L', .ok hashMap')) :
    L' = L := by
  induction files generalizing hashMap with
  | nil =>
    simp only [syncLocalIndexLoop, Prod.mk.injEq] at h
    exact h.1.symm
  | cons file rest ih =>
    have hnd : file.Name ∉ rest.map FileInfo.Name ∧ (rest.map FileInfo.Name).Nodup :=
      List.nodup_cons.mp hnames
    have hrestnd : (rest.map FileInfo.Name).Nodup := hnd.2
    have hnotin : ∀ f ∈ rest, f.Name ≠ file.Name := by
      intro f hf e
      exact hnd.1 (e ▸ List.mem_map_of_mem FileInfo.Name hf)
    have hrest : ∀ f ∈ rest, f.Name ≠ DEFAULT_META_FILENAME →
        ∃ m, L.get? f.Name = some m ∧ hashMap'.get? f.Name = some m.BlockHashList :=
      fun f hf => hfiles f (List.mem_cons_of_mem _ hf)
    by_cases hname : file.Name = DEFAULT_META_FILENAME
    · simp only [syncLocalIndexLoop, hname, if_true] at h
      exact ih _ hrestnd hrest h
    · obtain ⟨m, hLm, hFm⟩ := hfiles file (List.mem_cons_self _ _) hname
      simp only [syncLocalIndexLoop, hname, if_false] at h
      cases hfs : fs.files.get? (client.BaseDir ++ "/" ++ file.Name) with
      | none => simp [hfs] at h
      | some content =>
        simp only [hfs] at h
        cases hsb : scanBlocks GetBlockHashString client.BlockSize file.Name
            (numBlocks file.Size client.BlockSize) content hashMap with
        | error e => simp [hsb] at h
        | ok hm₁ =>
          simp only [hsb, hLm] at h
          split at h
          · rename_i hdiff
            have hframe := syncLocalIndexLoop_hashMap_frame GetBlockHashString client fs
              file.Name rest _ _ _ _ hnotin h
            rw [hFm] at hframe
            rw [← hframe] at hdiff
            exact absurd rfl hdiff
          · exact ih _ hrestnd hrest h

theorem checkDeletedFiles_eq_self (L : GoMap FileMetaData) (hashMap : GoMap (List String))
    (h : ∀ p ∈ L, hashMap.get? p.1 = none → p.2.BlockHashList = ["0"]) :
    checkDeletedFiles L hashMap = L := by
  rw [checkDeletedFiles_eq_map]
  conv_rhs => rw [← List.map_id L]
  apply List.map_congr_left
  intro p hp
  obtain ⟨k, m⟩ := p
  simp only [id]
  by_cases hs : hashMap.get? k = none
  · have ht : m.BlockHashList = ["0"] := h (k, m) hp hs
    have hnt := (not_tombstone_iff m.BlockHashList).not.mpr (not_not.mpr ht)
    simp only [hs, Option.isNone_none, if_true, if_neg hnt]
  · have hs' : ¬ ((GoMap.get? hashMap k).isNone = true) := by
      simpa [Option.isNone_iff_eq_none] using hs
    simp only [if_neg hs']

theorem GoMap.get?_of_mem_of_nodup {V : Type} (m : GoMap V) (k : String) (v : V)
    (hmem : (k, v) ∈ m) (hnd : m.keys.Nodup) : m.get? k = some v := by
  induction m with
  | nil => simp at hmem
  | cons p t ih =>
    obtain ⟨k', v'⟩ := p
    have hnd' : k' ∉ t.map Prod.fst ∧ (t.map Prod.fst).Nodup := List.nodup_cons.mp hnd
    rcases List.mem_cons.mp hmem with heq | ht
    · simp only [Prod.mk.injEq] at heq
      obtain ⟨rfl, rfl⟩ := heq
      simp [GoMap.get?]
    · have hne : ¬ k' = k := by
        intro e
        subst e
        exact hnd'.1 (List.mem_map_of_mem Prod.fst ht)
      simp only [GoMap.get?, hne, if_false]
      exact ih ht hnd'.2

theorem uploadNewFiles_noop {σ : Type} (GetBlockHashString : List UInt8 → String)
    (Hash : String → String) (srv : RPCServer σ) (client : RPCClient) (fs : FileSys)
    (R : GoMap FileMetaData) (addrs : List String) (E : GoMap FileMetaData) (s : σ)
    (h : ∀ p ∈ E, R.get? p.1 = some p.2) :
    uploadNewFiles GetBlockHashString Hash srv client fs R addrs E s = some (s, E, none) := by
  induction E with
  | nil => rfl
  | cons p rest ih =>
    obtain ⟨k, m⟩ := p
    have hk : R.get? k = some m := h (k, m) (List.mem_cons_self _ _)
    have hrest := ih (fun q hq => h q (List.mem_cons_of_mem _ hq))
    simp [uploadNewFiles, hk, hrest]

theorem downloadNewFiles_noop {σ : Type} (Hash : String → String) (srv : RPCServer σ)
    (client : RPCClient) (addrs : List String) (E : GoMap FileMetaData) (fs : FileSys) (s : σ)
    (L : GoMap FileMetaData) (h : ∀ p ∈ E, L.get? p.1 = some p.2) :
    downloadNewFiles Hash srv client addrs E fs s L = some (fs, s, L, none) := by
  induction E with
  | nil => rfl
  | cons p rest ih =>
    obtain ⟨k, r⟩ := p
    have hk : L.get? k = some r := h (k, r) (List.mem_cons_self _ _)
    have hrest := ih (fun q hq => h q (List.mem_cons_of_mem _ hq))
    simp [downloadNewFiles, hk, hrest]

/-- Idempotence of the pass away from zero-byte files.  Let the scan succeed
with scanned map `hashMap`, every file of the directory (the index file aside)
have a key in `hashMap` and an entry in `L` with that hash list, every entry of
`L` without a key in `hashMap` be a tombstone, and the remote index be `L`.
Then the merge leaves `L` as it is and the whole pass returns with the disk,
the server state and `L` unchanged, whatever the server is: no remote call is
made and the run reaches the write of the index. -/
theorem clientSync_noop {σ : Type} (GetBlockHashString : List UInt8 → String)
    (Hash : String → String) (srv : RPCServer σ) (client : RPCClient) (fs : FileSys) (s : σ)
    (files : List FileInfo) (L L₁ : GoMap FileMetaData) (hashMap : GoMap (List String))
    (addrs : List String)
    (hscan : syncLocalIndex GetBlockHashString client fs L files = (L₁, .ok hashMap))
    (hnames : (files.map FileInfo.Name).Nodup) (hkeys : L.keys.Nodup)
    (hfiles : ∀ file ∈ files, file.Name ≠ DEFAULT_META_FILENAME →
      ∃ m, L.get? file.Name = some m ∧ hashMap.get? file.Name = some m.BlockHashList)
    (hdel : ∀ f m, L.get? f = some m → hashMap.get? f = none → m.BlockHashList = ["0"]) :
    L₁ = L ∧
    ClientSync GetBlockHashString Hash srv client fs s files L L addrs
      = some ⟨fs, s, L, true⟩ := by
  have hL₁ : L₁ = L :=
    syncLocalIndexLoop_unchanged GetBlockHashString client fs files L L₁ [] hashMap hnames
      hfiles hscan
  subst hL₁
  have hself : ∀ p ∈ L₁, GoMap.get? L₁ p.1 = some p.2 :=
    fun p hp => GoMap.get?_of_mem_of_nodup L₁ p.1 p.2 hp hkeys
  have hcd : checkDeletedFiles L₁ hashMap = L₁ :=
    checkDeletedFiles_eq_self L₁ hashMap (fun p hp hs => hdel p.1 p.2 (hself p hp) hs)
  have hup := uploadNewFiles_noop GetBlockHashString Hash srv client fs L₁ addrs L₁ s hself
  have hdown := downloadNewFiles_noop Hash srv client addrs L₁ fs s L₁ hself
  refine ⟨rfl, ?_⟩
  simp only [ClientSync, hscan, hcd, hup, hdown]

/-- An instance of `clientSync_noop`: one three-byte file `a.txt` and the
tombstone of a deleted `d.txt`; the call log of the server stays empty. -/
theorem clientSync_noop_witness :
    ([("a.txt", ⟨"a.txt", 3, ["ff3"]⟩), ("d.txt", ⟨"d.txt", 2, ["0"]⟩)] : GoMap FileMetaData)
      = [("a.txt", ⟨"a.txt", 3, ["ff3"]⟩), ("d.txt", ⟨"d.txt", 2, ["0"]⟩)] ∧
    ClientSync (fun _ => "ff3") (fun a => a) (Cluster.server (fun _ => "ff3")).logged
        ⟨"localhost:8081", "base", 4096⟩ ⟨[("base/a.txt", [1, 2, 3])], []⟩
        (⟨⟨[("a.txt", ⟨"a.txt", 3, ["ff3"]⟩), ("d.txt", ⟨"d.txt", 2, ["0"]⟩)], ["s1"]⟩,
          [("s1", ⟨[("ff3", ⟨[1, 2, 3], 3⟩)]⟩)]⟩, [])
        [⟨"a.txt", 3⟩]
        [("a.txt", ⟨"a.txt", 3, ["ff3"]⟩), ("d.txt", ⟨"d.txt", 2, ["0"]⟩)]
        [("a.txt", ⟨"a.txt", 3, ["ff3"]⟩), ("d.txt", ⟨"d.txt", 2, ["0"]⟩)] ["s1"]
      = some ⟨⟨[("base/a.txt", [1, 2, 3])], []⟩,
          (⟨⟨[("a.txt", ⟨"a.txt", 3, ["ff3"]⟩), ("d.txt", ⟨"d.txt", 2, ["0"]⟩)], ["s1"]⟩,
            [("s1", ⟨[("ff3", ⟨[1, 2, 3], 3⟩)]⟩)]⟩, []),
          [("a.txt", ⟨"a.txt", 3, ["ff3"]⟩), ("d.txt", ⟨"d.txt", 2, ["0"]⟩)], true⟩ :=
  clientSync_noop (fun _ => "ff3") (fun a => a) (Cluster.server (fun _ => "ff3")).logged
    ⟨"localhost:8081", "base", 4096⟩ ⟨[("base/a.txt", [1, 2, 3])], []⟩
    (⟨⟨[("a.txt", ⟨"a.txt", 3, ["ff3"]⟩), ("d.txt", ⟨"d.txt", 2, ["0"]⟩)], ["s1"]⟩,
      [("s1", ⟨[("ff3", ⟨[1, 2, 3], 3⟩)]⟩)]⟩, [])
    [⟨"a.txt", 3⟩]
    [("a.txt", ⟨"a.txt", 3, ["ff3"]⟩), ("d.txt", ⟨"d.txt", 2, ["0"]⟩)]
    [("a.txt", ⟨"a.txt", 3, ["ff3"]⟩), ("d.txt", ⟨"d.txt", 2, ["0"]⟩)]
    [("a.txt", ["ff3"])] ["s1"] rfl (by decide) (by decide)
    (by
      intro file hf _
      rw [List.mem_singleton] at hf
      subst hf
      exact ⟨⟨"a.txt", 3, ["ff3"]⟩, rfl, rfl⟩)
    (by
      intro f m h1 h2
      by_cases ha : "a.txt" = f
      · subst ha
        exact absurd h2 (by decide)
      · by_cases hd : "d.txt" = f
        · subst hd
          have hm : some (⟨"d.txt", 2, ["0"]⟩ : FileMetaData) = some m := h1
          rw [← Option.some.inj hm]
        · simp [GoMap.get?, ha, hd] at h1)

end Surfstore
